import Mathlib

/-!
UdpScheduler (src/Third_Task.cpp): a shallow embedding
======================================================

The scheduler object, its four public operations and the worker loop of
`src/Third_Task.cpp` are embedded as pure functions on explicit state.

Modelling conventions
* `std::chrono::steady_clock::time_point` is an integer count of clock ticks
  (nanoseconds); `std::chrono::seconds(n)` is `n * 1000000000` ticks. The clock
  is assumed to stay inside its 64-bit range (signed overflow of a time point
  is undefined behaviour in the source and is not modelled).
* `uint8_t` values are `Fin 256`.
* `int` values are `Int`; the only arithmetic on them is `idCounter++` on a
  `std::atomic<int>`, which wraps modulo `2^32` (`wrapInt32`).
* `std::priority_queue<Task, std::vector<Task>, std::greater<>>` is modelled by
  its contract: a finite bag of tasks (a list), `top` returns an element that is
  not greater than any other, `pop` removes that element. Which of several
  tasks with equal `nextTime` is on top is a choice of the standard library;
  the model picks the leftmost one, and the theorems below compare queues up to
  permutation wherever that choice could show.
* Every critical section (code run while `mtx` is held) is one atomic step. The
  worker's loop body is two steps, `workerPop` (loop head up to `lock.unlock()`)
  and `workerSend` (`sendPacket` and the requeue), so that API calls of other
  threads can be interleaved between them.
-/

namespace UdpScheduler

/-- A `uint8_t`. -/
abbrev UInt8T := Fin 256

/-- Ticks of `steady_clock` per second (nanosecond resolution). -/
def ticksPerSecond : Int := 1000000000

/-- The duration `std::chrono::seconds(n)` for a `uint8_t` count, in clock ticks. -/
def seconds (n : UInt8T) : Int := (n.val : Int) * ticksPerSecond

/-- The `sockaddr_in` built from the `ip` string and `port` of an API call
(`sin_family = AF_INET`, `sin_port = htons(port)`, `sin_addr` from `inet_pton`),
kept as the pair it is computed from. -/
structure SockAddr where
  ip : String
  port : Nat
deriving DecidableEq, Repr

/-- The private `struct Task`. -/
structure Task where
  nextTime : Int
  interval : UInt8T
  id : Int
  addr : SockAddr
  payload : List UInt8T
deriving DecidableEq, Repr

/-- The member `Task::operator>`: `return nextTime > other.nextTime;`. -/
def Task.gt (t other : Task) : Bool := decide (t.nextTime > other.nextTime)

/-- The container `std::priority_queue<Task, std::vector<Task>, std::greater<>>`. -/
abbrev PQ := List Task

namespace PQ

/-- The call `queue.empty()`. -/
def empty (q : PQ) : Bool := q.isEmpty

/-- The call `queue.push(t)`. -/
def push (q : PQ) (t : Task) : PQ := q ++ [t]

/-- Leftmost task of `t :: rest` that is not `operator>` any other task. -/
def minTask : Task → List Task → Task
  | t, [] => t
  | t, u :: rest => if t.gt u then minTask u rest else minTask t rest

/-- The call `queue.top()`: with `std::greater<>` the top is a task with the least
`nextTime`. Undefined on an empty queue in the source, `none` here. -/
def top : PQ → Option Task
  | [] => none
  | t :: rest => some (minTask t rest)

/-- The call `queue.pop()`: removes the task `top` returns. -/
def pop (q : PQ) : PQ :=
  match top q with
  | none => q
  | some t => q.erase t

end PQ

/-- Two's-complement wrap of an integer into the range of `int` (32 bits). -/
def wrapInt32 (x : Int) : Int := (x + 2147483648) % 4294967296 - 2147483648

/-- The fields of `class UdpScheduler` that the operations read or write
(`sockfd`, `mtx`, `cv` and the thread handle carry no data of the model). -/
structure Sched where
  queue : PQ
  idCounter : Int
  running : Bool
deriving DecidableEq, Repr

/-- The scheduler right after construction: `running{true}`, an empty queue,
`idCounter{1}`. -/
def Sched.init : Sched := { queue := [], idCounter := 1, running := true }

/-- The method `UdpScheduler::sendNow`: a direct `sendto`; no field is written. -/
def sendNow (_addr : SockAddr) (_data : List UInt8T) (s : Sched) : Sched := s

/-- The method `UdpScheduler::sendAfter`; `now` is the value of
`steady_clock::now()` read by the call. -/
def sendAfter (now : Int) (delaySeconds : UInt8T) (addr : SockAddr)
    (data : List UInt8T) (s : Sched) : Sched :=
  let task : Task :=
    { interval := 0, id := 0, nextTime := now + seconds delaySeconds,
      payload := data, addr := addr }
  { s with queue := s.queue.push task }

/-- The method `UdpScheduler::sendPeriodic`; returns `task.id` and the new state.
`task.id = idCounter++` reads the counter and advances it with wraparound. -/
def sendPeriodic (now : Int) (intervalSeconds : UInt8T) (addr : SockAddr)
    (data : List UInt8T) (s : Sched) : Int × Sched :=
  let task : Task :=
    { interval := intervalSeconds, id := s.idCounter,
      nextTime := now + seconds intervalSeconds, payload := data, addr := addr }
  (task.id, { s with queue := s.queue.push task,
                     idCounter := wrapInt32 (s.idCounter + 1) })

/-- The `while (!queue.empty())` loop of `cancelPeriodic`, run for at most `fuel`
iterations: each iteration takes `queue.top()`, pops it, and pushes it on
`newQueue` unless its id is `taskId`. Returns both queues as the loop leaves
them. Every iteration removes one task, so `queue.length` iterations reach the
exit `queue.empty()` (`cancelLoop_drains`). -/
def cancelLoop (taskId : Int) : Nat → PQ → PQ → PQ × PQ
  | 0, queue, newQueue => (queue, newQueue)
  | fuel + 1, queue, newQueue =>
    match PQ.top queue with
    | none => (queue, newQueue)
    | some t =>
      if t.id ≠ taskId then cancelLoop taskId fuel (PQ.pop queue) (PQ.push newQueue t)
      else cancelLoop taskId fuel (PQ.pop queue) newQueue

/-- The method `UdpScheduler::cancelPeriodic`: the drain loop from an empty
`newQueue`, then `queue.swap(newQueue)`. -/
def cancelPeriodic (taskId : Int) (s : Sched) : Sched :=
  { s with queue := (cancelLoop taskId s.queue.length s.queue []).2 }

/-- The destructor up to `worker.join()`: `running = false`. -/
def shutdown (s : Sched) : Sched := { s with running := false }

/-- Where the worker thread stands in `workerLoop`. -/
inductive WorkerPc where
  /-- About to evaluate `while (running)`; no local is live. -/
  | loopHead
  /-- After `lock.unlock()`, before `sendPacket(task)`, with the locals `task`
  and `now` of this iteration. -/
  | sending (task : Task) (now : Int)
  /-- The loop was left because `running` was false. -/
  | exited
deriving DecidableEq, Repr

/-- The scheduler object together with its worker thread, and two logs kept for
the statements: the arguments of the `sendPacket` calls and the values returned
by the `sendPeriodic` calls, oldest first. -/
structure System where
  sched : Sched
  pc : WorkerPc
  sent : List Task
  returned : List Int
deriving DecidableEq, Repr

/-- A freshly constructed scheduler whose worker is at the head of its loop. -/
def System.init : System :=
  { sched := Sched.init, pc := WorkerPc.loopHead, sent := [], returned := [] }

/-- First half of one pass through the body of `workerLoop`, with `now` the value
of `steady_clock::now()` it reads: from `while (running)` to `lock.unlock()`.
Leaves the loop when `running` is false; changes nothing when the queue is
empty (`cv.wait`) or the top task is not due (`cv.wait_until`); otherwise
pops the top task and keeps it, with `now`, in the worker's locals. -/
def workerPop (now : Int) (w : System) : System :=
  match w.pc with
  | WorkerPc.loopHead =>
    if w.sched.running = false then { w with pc := WorkerPc.exited }
    else if w.sched.queue.empty then w
    else
      match PQ.top w.sched.queue with
      | none => w
      | some task =>
        if task.nextTime > now then w
        else
          { w with sched := { w.sched with queue := PQ.pop w.sched.queue },
                   pc := WorkerPc.sending task now }
  | _ => w

/-- Second half of one pass through the body of `workerLoop`: `sendPacket(task)`,
then, if `task.interval > 0 && running`, `task.nextTime = now + seconds(interval)`
and `queue.push(task)`. -/
def workerSend (w : System) : System :=
  match w.pc with
  | WorkerPc.sending task now =>
    if task.interval > 0 && w.sched.running then
      { w with sched := { w.sched with
                 queue := w.sched.queue.push
                   { task with nextTime := now + seconds task.interval } },
               pc := WorkerPc.loopHead,
               sent := w.sent ++ [task] }
    else
      { w with pc := WorkerPc.loopHead, sent := w.sent ++ [task] }
  | _ => w

/-- One uninterrupted pass through the body of `workerLoop`. -/
def workerIter (now : Int) (w : System) : System := workerSend (workerPop now w)

/-- What can happen next to a scheduler: a call of one of its methods by some
thread, its destruction, or one of the two steps of the worker. -/
inductive Event where
  | sendNow (addr : SockAddr) (data : List UInt8T)
  | sendAfter (now : Int) (delaySeconds : UInt8T) (addr : SockAddr) (data : List UInt8T)
  | sendPeriodic (now : Int) (intervalSeconds : UInt8T) (addr : SockAddr)
      (data : List UInt8T)
  | cancelPeriodic (taskId : Int)
  | shutdown
  | workerPop (now : Int)
  | workerSend
deriving DecidableEq, Repr

/-- The effect of one event. -/
def step (w : System) : Event → System
  | Event.sendNow addr data => { w with sched := sendNow addr data w.sched }
  | Event.sendAfter now d addr data => { w with sched := sendAfter now d addr data w.sched }
  | Event.sendPeriodic now i addr data =>
    { w with sched := (sendPeriodic now i addr data w.sched).2,
             returned := w.returned ++ [(sendPeriodic now i addr data w.sched).1] }
  | Event.cancelPeriodic taskId => { w with sched := cancelPeriodic taskId w.sched }
  | Event.shutdown => { w with sched := shutdown w.sched }
  | Event.workerPop now => workerPop now w
  | Event.workerSend => workerSend w

/-- The effect of a sequence of events, first event first. -/
def run (w : System) (evs : List Event) : System := evs.foldl step w

/-- The tasks handed to `sendPacket` while `evs` runs from `w`, oldest first. -/
def dispatched (w : System) (evs : List Event) : List Task :=
  (run w evs).sent.drop w.sent.length

/-- Whether an event is a call of `sendPeriodic`. -/
def Event.isSendPeriodic : Event → Bool
  | Event.sendPeriodic _ _ _ _ => true
  | _ => false

/-- The endpoint `127.0.0.1:port` used by `main`. -/
def loopback (port : Nat) : SockAddr := { ip := "127.0.0.1", port := port }

/-- A running scheduler whose queue holds one periodic task (id 1, every 2 s)
due at 2 s, the worker at the head of its loop. -/
def onePeriodic : System :=
  { sched := { queue := [{ nextTime := 2000000000, interval := 2, id := 1,
                           addr := loopback 5002, payload := [80, 105, 110, 103] }],
               idCounter := 2, running := true },
    pc := WorkerPc.loopHead, sent := [], returned := [1] }

/-- A running scheduler whose queue holds one one-shot task due at 5 s and one
periodic task (id 1, every 2 s) due at 6 s. -/
def oneShotAndPeriodic : System :=
  { sched := { queue := [{ nextTime := 5000000000, interval := 0, id := 0,
                           addr := loopback 5001, payload := [68] },
                         { nextTime := 6000000000, interval := 2, id := 1,
                           addr := loopback 5002, payload := [80] }],
               idCounter := 2, running := true },
    pc := WorkerPc.loopHead, sent := [], returned := [1] }

/-- The one-shot task of `oneShotAndPeriodic`. -/
def lateOneShot : Task :=
  { nextTime := 5000000000, interval := 0, id := 0, addr := loopback 5001, payload := [68] }

/-- The periodic task of `oneShotAndPeriodic`. -/
def laterPeriodic : Task :=
  { nextTime := 6000000000, interval := 2, id := 1, addr := loopback 5002, payload := [80] }

/-- Two uninterrupted passes of the worker, at 5 s and at 6 s. -/
def passesAtFiveAndSix : List Event :=
  [Event.workerPop 5000000000, Event.workerSend, Event.workerPop 6000000000, Event.workerSend]

/-- An interleaving in which `cancelPeriodic(1)` runs between the worker's pop of
task 1 and its requeue: the task is created at time 0 with interval 2 s, popped
at 2 s, cancelled while in flight, then the worker finishes the pass and makes
another pass at 4 s. -/
def cancelRace : List Event :=
  [Event.sendPeriodic 0 2 (loopback 5002) [80], Event.workerPop 2000000000,
   Event.cancelPeriodic 1, Event.workerSend, Event.workerPop 4000000000, Event.workerSend]

/-- One round that leaves the queue empty: `sendPeriodic(0, ...)` at time 0 queues a
task that is due at once, and one pass of the worker at time 0 sends it and
does not push it back. -/
def idRound : List Event :=
  [Event.sendPeriodic 0 0 (loopback 5002) [], Event.workerPop 0, Event.workerSend]

/-- The round `idRound`, `n` times in a row. -/
def idRounds : Nat → List Event
  | 0 => []
  | n + 1 => idRounds n ++ idRound

/-- The three enqueueing-side calls of `main`, made at time 0: `sendNow`, then
`sendAfter(5, ...)`, then `sendPeriodic(2, ...)`. -/
def mainCalls : List Event :=
  [Event.sendNow (loopback 5000) [72, 105],
   Event.sendAfter 0 5 (loopback 5001) [68, 101, 108, 97, 121],
   Event.sendPeriodic 0 2 (loopback 5002) [80, 105, 110, 103]]

/-- One uninterrupted pass of the worker whose clock reads `secs` seconds. -/
def passAt (secs : Nat) : List Event :=
  [Event.workerPop ((secs : Int) * ticksPerSecond), Event.workerSend]

/-- The periodic task of `main` (id 1, every 2 s) when it is due at `secs` seconds. -/
def pingAt (secs : Nat) : Task :=
  { nextTime := (secs : Int) * ticksPerSecond, interval := 2, id := 1,
    addr := loopback 5002, payload := [80, 105, 110, 103] }

/-- The one-shot task of `main`, due at 5 s. -/
def delayTask : Task :=
  { nextTime := 5000000000, interval := 0, id := 0,
    addr := loopback 5001, payload := [68, 101, 108, 97, 121] }

/-- Passes of the worker at 6 s, 8 s, ..., `k` of them. -/
def laterPasses : Nat → List Event
  | 0 => []
  | k + 1 => laterPasses k ++ passAt (6 + 2 * k)

/-- The scenario of `main`: its calls at time 0, then passes of the worker exactly
at the fire times 2 s, 4 s, 5 s and `k` further ones at 6 s, 8 s, ... -/
def mainScenario (k : Nat) : List Event :=
  mainCalls ++ passAt 2 ++ passAt 4 ++ passAt 5 ++ laterPasses k


/-- A running scheduler after the calls of `main` (the id counter stands at 2, id 1
was returned) in which `t` is the only queued task, the worker is at the head
of its loop and `sent` is the log of tasks sent so far. -/
def loneQueued (t : Task) (sent : List Task) : System :=
  { sched := { queue := [t], idCounter := 2, running := true },
    pc := WorkerPc.loopHead, sent := sent, returned := [1] }

/-- The state of the scenario of `main` between two passes of the worker once the
one-shot task is gone: only the periodic task is queued, due at `secs`
seconds, and `sent` is the log of tasks sent so far. -/
def pingQueued (secs : Nat) (sent : List Task) : System :=
  loneQueued (pingAt secs) sent

/-- A run in which id 0 is cancelled while a one-shot task is queued: `sendAfter(5, ...)`
at time 0, then `cancelPeriodic(0)`, then one pass of the worker at 5 s, the
fire time of the one-shot task. -/
def cancelZero : List Event :=
  [Event.sendAfter 0 5 (loopback 5001) [68], Event.cancelPeriodic 0,
   Event.workerPop 5000000000, Event.workerSend]

/-! Section: The priority queue -/

theorem PQ.minTask_mem (t : Task) (rest : List Task) : PQ.minTask t rest ∈ t :: rest := by
  induction rest generalizing t with
  | nil => simp [PQ.minTask]
  | cons u rest ih =>
    unfold PQ.minTask
    split
    · exact List.mem_cons_of_mem _ (ih u)
    · rcases List.mem_cons.1 (ih t) with h | h
      · simp [h]
      · exact List.mem_cons_of_mem _ (List.mem_cons_of_mem _ h)

theorem PQ.minTask_le_head (t : Task) (rest : List Task) :
    (PQ.minTask t rest).nextTime ≤ t.nextTime := by
  induction rest generalizing t with
  | nil => simp [PQ.minTask]
  | cons u rest ih =>
    unfold PQ.minTask
    split
    · rename_i h
      have h1 : u.nextTime < t.nextTime := by simpa [Task.gt] using h
      exact le_trans (ih u) (le_of_lt h1)
    · exact ih t

theorem PQ.minTask_le (t : Task) (rest : List Task) :
    ∀ u ∈ t :: rest, (PQ.minTask t rest).nextTime ≤ u.nextTime := by
  induction rest generalizing t with
  | nil => intro u hu; simp at hu; simp [PQ.minTask, hu]
  | cons v rest ih =>
    intro u hu
    unfold PQ.minTask
    split
    · rename_i h
      have h1 : v.nextTime < t.nextTime := by simpa [Task.gt] using h
      rcases List.mem_cons.1 hu with h2 | h2
      · subst h2
        exact le_trans (PQ.minTask_le_head v rest) (le_of_lt h1)
      · exact ih v u h2
    · rename_i h
      have h1 : t.nextTime ≤ v.nextTime := by simpa [Task.gt] using h
      rcases List.mem_cons.1 hu with h2 | h2
      · subst h2; exact PQ.minTask_le_head u rest
      · rcases List.mem_cons.1 h2 with h3 | h3
        · subst h3; exact le_trans (PQ.minTask_le_head t rest) h1
        · exact ih t u (List.mem_cons_of_mem _ h3)

theorem PQ.top_eq_none {q : PQ} (h : PQ.top q = none) : q = [] := by
  cases q with
  | nil => rfl
  | cons t rest => simp [PQ.top] at h

theorem PQ.top_mem {q : PQ} {t : Task} (h : PQ.top q = some t) : t ∈ q := by
  cases q with
  | nil => simp [PQ.top] at h
  | cons u rest =>
    simp only [PQ.top, Option.some.injEq] at h
    subst h
    exact PQ.minTask_mem u rest

theorem PQ.top_le {q : PQ} {t : Task} (h : PQ.top q = some t) :
    ∀ u ∈ q, t.nextTime ≤ u.nextTime := by
  cases q with
  | nil => simp [PQ.top] at h
  | cons v rest =>
    simp only [PQ.top, Option.some.injEq] at h
    subst h
    exact PQ.minTask_le v rest

theorem PQ.pop_eq_erase {q : PQ} {t : Task} (h : PQ.top q = some t) :
    PQ.pop q = q.erase t := by
  simp [PQ.pop, h]

theorem PQ.perm_top_pop {q : PQ} {t : Task} (h : PQ.top q = some t) :
    List.Perm q (t :: PQ.pop q) := by
  rw [PQ.pop_eq_erase h]
  exact List.perm_cons_erase (PQ.top_mem h)

theorem PQ.pop_length {q : PQ} {t : Task} (h : PQ.top q = some t) :
    (PQ.pop q).length + 1 = q.length := by
  have := (PQ.perm_top_pop h).length_eq
  simp at this
  omega

theorem PQ.mem_of_mem_pop {q : PQ} {u : Task} (h : u ∈ PQ.pop q) : u ∈ q := by
  unfold PQ.pop at h
  split at h
  · exact h
  · exact List.mem_of_mem_erase h

/-! Section: The drain loop of `cancelPeriodic` -/

/-- With at least `queue.length` iterations the loop leaves through
`queue.empty()`, and `newQueue` then holds what it held before plus the tasks
of `queue` whose id is not `taskId`, each as often as `queue` held it. -/
theorem cancelLoop_spec (taskId : Int) :
    ∀ (fuel : Nat) (queue newQueue : PQ), queue.length ≤ fuel →
      (cancelLoop taskId fuel queue newQueue).1 = [] ∧
      List.Perm (cancelLoop taskId fuel queue newQueue).2
        (newQueue ++ queue.filter (fun t => decide (t.id ≠ taskId))) := by
  intro fuel
  induction fuel with
  | zero =>
    intro queue newQueue h
    have hq : queue = [] := List.length_eq_zero.1 (Nat.le_zero.1 h)
    subst hq
    simp [cancelLoop]
  | succ n ih =>
    intro queue newQueue h
    unfold cancelLoop
    cases htop : PQ.top queue with
    | none =>
      have hq := PQ.top_eq_none htop
      subst hq
      simp
    | some t =>
      have hlen := PQ.pop_length htop
      have hperm := PQ.perm_top_pop htop
      have hfilter := hperm.filter (fun t => decide (t.id ≠ taskId))
      by_cases hid : t.id = taskId
      · have h1 := ih (PQ.pop queue) newQueue (by omega)
        simp only [hid, ne_eq, not_true_eq_false, if_false]
        refine ⟨h1.1, h1.2.trans ?_⟩
        refine List.Perm.append_left _ ?_
        refine List.Perm.symm (hfilter.trans ?_)
        simp [hid]
      · have h1 := ih (PQ.pop queue) (PQ.push newQueue t) (by omega)
        simp only [ne_eq, hid, not_false_eq_true, if_true]
        refine ⟨h1.1, h1.2.trans ?_⟩
        refine List.Perm.symm ((List.Perm.append_left _ hfilter).trans ?_)
        simp [hid, PQ.push]

theorem cancelPeriodic_perm (taskId : Int) (s : Sched) :
    List.Perm (cancelPeriodic taskId s).queue
      (s.queue.filter (fun t => decide (t.id ≠ taskId))) := by
  have h := (cancelLoop_spec taskId s.queue.length s.queue [] (le_refl _)).2
  simpa [cancelPeriodic] using h

/-- The loop of `cancelPeriodic` ends because the queue is empty, not because the
iteration bound of the model is reached. -/
theorem cancelLoop_drains (taskId : Int) (s : Sched) :
    (cancelLoop taskId s.queue.length s.queue []).1 = [] :=
  (cancelLoop_spec taskId s.queue.length s.queue [] (le_refl _)).1

/-! Section: One pass of the worker -/

/-- When the first half of a pass ends with a task in flight, that task was on
top of the queue and due at the clock reading of the pass, the scheduler was
running, and the only change is the pop. -/
theorem workerPop_sending {w : System} {now n : Int} {t : Task}
    (hpc : w.pc = WorkerPc.loopHead) (h : (workerPop now w).pc = WorkerPc.sending t n) :
    n = now ∧ w.sched.running = true ∧ PQ.top w.sched.queue = some t ∧ t.nextTime ≤ now ∧
      workerPop now w =
        { w with sched := { w.sched with queue := PQ.pop w.sched.queue },
                 pc := WorkerPc.sending t now } := by
  unfold workerPop at h ⊢
  rw [hpc] at h ⊢
  simp only at h ⊢
  by_cases hr : w.sched.running = false
  · simp [hr] at h
  · simp only [hr, if_false] at h ⊢
    by_cases he : PQ.empty w.sched.queue = true
    · simp [he, hpc] at h
    · simp only [he] at h ⊢
      cases htop : PQ.top w.sched.queue with
      | none => simp [htop, hpc] at h
      | some task =>
        simp only [htop] at h ⊢
        by_cases hdue : task.nextTime > now
        · simp [hdue, hpc] at h
        · simp only [hdue, if_false, WorkerPc.sending.injEq] at h ⊢
          obtain ⟨h1, h2⟩ := h
          simp [not_lt.1 hdue]

theorem workerSend_sending {w : System} {task : Task} {now : Int}
    (hpc : w.pc = WorkerPc.sending task now) :
    workerSend w =
      if task.interval > 0 && w.sched.running then
        { w with sched := { w.sched with
                   queue := w.sched.queue.push
                     { task with nextTime := now + seconds task.interval } },
                 pc := WorkerPc.loopHead,
                 sent := w.sent ++ [task] }
      else
        { w with pc := WorkerPc.loopHead, sent := w.sent ++ [task] } := by
  unfold workerSend
  rw [hpc]

theorem workerPop_cases (now : Int) (w : System) (hpc : w.pc = WorkerPc.loopHead) :
    workerPop now w = w ∨ workerPop now w = { w with pc := WorkerPc.exited } ∨
      ∃ t, PQ.top w.sched.queue = some t ∧ t.nextTime ≤ now ∧
        workerPop now w =
          { w with sched := { w.sched with queue := PQ.pop w.sched.queue },
                   pc := WorkerPc.sending t now } := by
  unfold workerPop
  rw [hpc]
  simp only
  by_cases hr : w.sched.running = false
  · right; left; simp [hr]
  · simp only [hr, if_false]
    by_cases he : PQ.empty w.sched.queue = true
    · left; simp [he]
    · simp only [he]
      cases htop : PQ.top w.sched.queue with
      | none => left; rfl
      | some task =>
        by_cases hdue : task.nextTime > now
        · left; simp [hdue]
        · right; right
          exact ⟨task, rfl, not_lt.1 hdue, by simp [hdue]⟩

theorem workerPop_of_not_loopHead (now : Int) (w : System)
    (hpc : w.pc ≠ WorkerPc.loopHead) : workerPop now w = w := by
  unfold workerPop
  split
  · rename_i h; exact absurd h hpc
  · rfl

theorem workerSend_of_not_sending (w : System)
    (hpc : ∀ t n, w.pc ≠ WorkerPc.sending t n) : workerSend w = w := by
  unfold workerSend
  split
  · rename_i t n h; exact absurd h (hpc t n)
  · rfl

/-! Section: Runs -/

theorem run_nil (w : System) : run w [] = w := rfl

theorem run_cons (w : System) (e : Event) (evs : List Event) :
    run w (e :: evs) = run (step w e) evs := rfl

theorem run_append (w : System) (evs evs2 : List Event) :
    run w (evs ++ evs2) = run (run w evs) evs2 := by
  simp [run, List.foldl_append]

/-- A task stays queued across `cancelPeriodic` of another id. -/
theorem mem_cancelPeriodic {taskId : Int} {s : Sched} {a : Task}
    (hmem : a ∈ s.queue) (hid : a.id ≠ taskId) : a ∈ (cancelPeriodic taskId s).queue := by
  apply (cancelPeriodic_perm taskId s).symm.subset
  exact List.mem_filter.2 ⟨hmem, by simpa using hid⟩

/-- One event preserves the facts from which the dispatch order follows. `A` is
the task with the earlier fire time, `k` the length of the send log when the
run began: `A` is queued, in flight or already sent; `B` is in flight only
after `A` was sent; in the log `A` comes before `B`. -/
theorem order_step (A B : Task) (hlt : A.nextTime < B.nextTime) (k : Nat)
    (w : System) (e : Event) (he : e ≠ Event.cancelPeriodic A.id)
    (hk : k ≤ w.sent.length)
    (h1 : A ∈ w.sched.queue ∨ (∃ n, w.pc = WorkerPc.sending A n) ∨ A ∈ w.sent.drop k)
    (h2 : ∀ n, w.pc = WorkerPc.sending B n → A ∈ w.sent.drop k)
    (h3 : B ∈ w.sent.drop k →
      List.indexOf A (w.sent.drop k) < List.indexOf B (w.sent.drop k)) :
    k ≤ (step w e).sent.length ∧
      (A ∈ (step w e).sched.queue ∨ (∃ n, (step w e).pc = WorkerPc.sending A n) ∨
        A ∈ (step w e).sent.drop k) ∧
      (∀ n, (step w e).pc = WorkerPc.sending B n → A ∈ (step w e).sent.drop k) ∧
      (B ∈ (step w e).sent.drop k →
        List.indexOf A ((step w e).sent.drop k) < List.indexOf B ((step w e).sent.drop k)) := by
  cases e with
  | sendNow addr data => exact ⟨hk, h1, h2, h3⟩
  | sendAfter now d addr data =>
    refine ⟨hk, ?_, h2, h3⟩
    rcases h1 with h | h
    · left; simp [step, sendAfter, PQ.push, h]
    · right; exact h
  | sendPeriodic now d addr data =>
    refine ⟨hk, ?_, h2, h3⟩
    rcases h1 with h | h
    · left; simp [step, sendPeriodic, PQ.push, h]
    · right; exact h
  | cancelPeriodic taskId =>
    refine ⟨hk, ?_, h2, h3⟩
    rcases h1 with h | h
    · left
      have hid : A.id ≠ taskId := by
        intro hh; apply he; rw [hh]
      exact mem_cancelPeriodic h hid
    · right; exact h
  | shutdown => exact ⟨hk, h1, h2, h3⟩
  | workerPop now =>
    show k ≤ (workerPop now w).sent.length ∧ _
    by_cases hpc : w.pc = WorkerPc.loopHead
    · rcases workerPop_cases now w hpc with h | h | ⟨t, htop, _, h⟩
      · rw [show step w (Event.workerPop now) = workerPop now w from rfl, h]
        exact ⟨hk, h1, h2, h3⟩
      · rw [show step w (Event.workerPop now) = workerPop now w from rfl, h]
        refine ⟨hk, ?_, ?_, h3⟩
        · rcases h1 with h1 | ⟨n, h1⟩ | h1
          · left; exact h1
          · rw [hpc] at h1; cases h1
          · right; right; exact h1
        · intro n hn; cases hn
      · rw [show step w (Event.workerPop now) = workerPop now w from rfl, h]
        have hA : A ∈ w.sched.queue ∨ A ∈ w.sent.drop k := by
          rcases h1 with h1 | ⟨n, h1⟩ | h1
          · left; exact h1
          · rw [hpc] at h1; cases h1
          · right; exact h1
        refine ⟨hk, ?_, ?_, h3⟩
        · rcases hA with hA | hA
          · by_cases hAt : A = t
            · right; left; exact ⟨now, by rw [hAt]⟩
            · left
              show A ∈ PQ.pop w.sched.queue
              rw [PQ.pop_eq_erase htop]
              exact (List.mem_erase_of_ne hAt).2 hA
          · right; right; exact hA
        · intro n hn
          simp only [WorkerPc.sending.injEq] at hn
          rcases hA with hA | hA
          · have hle := PQ.top_le htop A hA
            rw [hn.1] at hle
            exact absurd hlt (not_lt.2 hle)
          · exact hA
    · rw [show step w (Event.workerPop now) = workerPop now w from rfl,
        workerPop_of_not_loopHead now w hpc]
      exact ⟨hk, h1, h2, h3⟩
  | workerSend =>
    by_cases hpc : ∃ t n, w.pc = WorkerPc.sending t n
    · obtain ⟨t, n, hpc⟩ := hpc
      have hsent : (step w Event.workerSend).sent = w.sent ++ [t] := by
        show (workerSend w).sent = _
        rw [workerSend_sending hpc]; split <;> rfl
      have hnpc : (step w Event.workerSend).pc = WorkerPc.loopHead := by
        show (workerSend w).pc = _
        rw [workerSend_sending hpc]; split <;> rfl
      have hq : A ∈ w.sched.queue → A ∈ (step w Event.workerSend).sched.queue := by
        intro hA
        show A ∈ (workerSend w).sched.queue
        rw [workerSend_sending hpc]
        split
        · simp [PQ.push, hA]
        · exact hA
      have hdrop : (step w Event.workerSend).sent.drop k = w.sent.drop k ++ [t] := by
        rw [hsent, List.drop_append_of_le_length hk]
      rw [hdrop, hsent, hnpc]
      refine ⟨by simp; omega, ?_, ?_, ?_⟩
      · rcases h1 with h1 | ⟨m, h1⟩ | h1
        · left; exact hq h1
        · right; right
          rw [hpc] at h1
          simp only [WorkerPc.sending.injEq] at h1
          simp [h1.1]
        · right; right; simp [h1]
      · intro m hm; cases hm
      · intro hB
        by_cases hBl : B ∈ w.sent.drop k
        · have h := h3 hBl
          have hAl : A ∈ w.sent.drop k :=
            List.indexOf_lt_length.1 (lt_of_lt_of_le h List.indexOf_le_length)
          rw [List.indexOf_append_of_mem hAl, List.indexOf_append_of_mem hBl]
          exact h
        · have hBt : B = t := by
            rcases List.mem_append.1 hB with h | h
            · exact absurd h hBl
            · simpa using h
          have hAl : A ∈ w.sent.drop k := h2 n (by rw [hpc, hBt])
          rw [List.indexOf_append_of_mem hAl, List.indexOf_append_of_not_mem hBl]
          have := List.indexOf_lt_length.2 hAl
          omega
    · have hns : ∀ t n, w.pc ≠ WorkerPc.sending t n := by
        intro t n h; exact hpc ⟨t, n, h⟩
      rw [show step w Event.workerSend = workerSend w from rfl,
        workerSend_of_not_sending w hns]
      exact ⟨hk, h1, h2, h3⟩

/-- In a run that never cancels the id of `A`, started with the worker at the
head of its loop and `A` queued, a task `B` with a later fire time is handed to
`sendPacket` only after `A` was. -/
theorem earlier_task_sent_first (A B : Task) (hlt : A.nextTime < B.nextTime)
    (evs : List Event) (hev : ∀ e ∈ evs, e ≠ Event.cancelPeriodic A.id)
    (w : System) (hpc : w.pc = WorkerPc.loopHead) (hA : A ∈ w.sched.queue)
    (hB : B ∈ dispatched w evs) :
    List.indexOf A (dispatched w evs) < List.indexOf B (dispatched w evs) := by
  have key : ∀ (evs : List Event) (v : System),
      (∀ e ∈ evs, e ≠ Event.cancelPeriodic A.id) →
      w.sent.length ≤ v.sent.length →
      (A ∈ v.sched.queue ∨ (∃ n, v.pc = WorkerPc.sending A n) ∨
        A ∈ v.sent.drop w.sent.length) →
      (∀ n, v.pc = WorkerPc.sending B n → A ∈ v.sent.drop w.sent.length) →
      (B ∈ v.sent.drop w.sent.length →
        List.indexOf A (v.sent.drop w.sent.length) <
          List.indexOf B (v.sent.drop w.sent.length)) →
      (B ∈ (run v evs).sent.drop w.sent.length →
        List.indexOf A ((run v evs).sent.drop w.sent.length) <
          List.indexOf B ((run v evs).sent.drop w.sent.length)) := by
    intro evs
    induction evs with
    | nil => intro v _ _ _ _ h3; exact h3
    | cons e rest ih =>
      intro v hev hk h1 h2 h3
      rw [run_cons]
      obtain ⟨hk2, g1, g2, g3⟩ :=
        order_step A B hlt w.sent.length v e (hev e (List.mem_cons_self _ _)) hk h1 h2 h3
      exact ih (step v e) (fun e2 h => hev e2 (List.mem_cons_of_mem _ h)) hk2 g1 g2 g3
  refine key evs w hev (le_refl _) (Or.inl hA) ?_ ?_ hB
  · intro n hn; rw [hpc] at hn; cases hn
  · intro h; simp at h

/-! Section: The id counter -/

theorem wrapInt32_of_inRange {c : Int} (h1 : -2147483648 ≤ c) (h2 : c < 2147483648) :
    wrapInt32 c = c := by
  unfold wrapInt32
  omega

theorem wrapInt32_succ (c : Int) : wrapInt32 (wrapInt32 c + 1) = wrapInt32 (c + 1) := by
  unfold wrapInt32
  omega

/-- Only `sendPeriodic` writes the id counter and the log of returned ids. -/
theorem step_of_not_sendPeriodic (w : System) (e : Event) (he : e.isSendPeriodic = false) :
    (step w e).sched.idCounter = w.sched.idCounter ∧ (step w e).returned = w.returned := by
  cases e with
  | sendNow addr data => exact ⟨rfl, rfl⟩
  | sendAfter now d addr data => exact ⟨rfl, rfl⟩
  | sendPeriodic now d addr data => simp [Event.isSendPeriodic] at he
  | cancelPeriodic taskId => exact ⟨rfl, rfl⟩
  | shutdown => exact ⟨rfl, rfl⟩
  | workerPop now =>
    show (workerPop now w).sched.idCounter = _ ∧ (workerPop now w).returned = _
    by_cases hpc : w.pc = WorkerPc.loopHead
    · rcases workerPop_cases now w hpc with h | h | ⟨t, _, _, h⟩ <;> rw [h] <;> exact ⟨rfl, rfl⟩
    · rw [workerPop_of_not_loopHead now w hpc]; exact ⟨rfl, rfl⟩
  | workerSend =>
    show (workerSend w).sched.idCounter = _ ∧ (workerSend w).returned = _
    by_cases hpc : ∃ t n, w.pc = WorkerPc.sending t n
    · obtain ⟨t, n, hpc⟩ := hpc
      rw [workerSend_sending hpc]
      split <;> exact ⟨rfl, rfl⟩
    · rw [workerSend_of_not_sending w (fun t n h => hpc ⟨t, n, h⟩)]
      exact ⟨rfl, rfl⟩

/-- As long as the counter does not pass `2^31 - 1`, the ids returned during a run
are consecutive, starting at the value of the counter. -/
theorem run_returned (evs : List Event) :
    ∀ (w : System) (c : Int), w.sched.idCounter = wrapInt32 c → -2147483648 ≤ c →
      c + (evs.countP Event.isSendPeriodic : Int) ≤ 2147483648 →
      (run w evs).returned =
          w.returned ++ (List.range (evs.countP Event.isSendPeriodic)).map
            (fun (j : Nat) => c + (j : Int)) ∧
        (run w evs).sched.idCounter =
          wrapInt32 (c + (evs.countP Event.isSendPeriodic : Int)) := by
  induction evs with
  | nil => intro w c hc _ _; simp [run, hc]
  | cons e rest ih =>
    intro w c hc hlo hhi
    rw [run_cons]
    by_cases he : e.isSendPeriodic = true
    · rw [List.countP_cons_of_pos _ _ he] at hhi ⊢
      push_cast at hhi
      have hn : (0 : Int) ≤ (List.countP Event.isSendPeriodic rest : Int) :=
        Int.ofNat_nonneg _
      have hcc : wrapInt32 c = c := wrapInt32_of_inRange hlo (by omega)
      cases e with
      | sendPeriodic now d addr data =>
        have hid : (step w (Event.sendPeriodic now d addr data)).sched.idCounter =
            wrapInt32 (c + 1) := by
          simp [step, sendPeriodic, hc, wrapInt32_succ]
        have hret : (step w (Event.sendPeriodic now d addr data)).returned =
            w.returned ++ [c] := by
          simp [step, sendPeriodic, hc, hcc]
        obtain ⟨g1, g2⟩ := ih _ (c + 1) hid (by omega) (by omega)
        rw [g1, g2, hret]
        refine ⟨?_, by push_cast; ring_nf⟩
        rw [List.range_succ_eq_map, List.map_cons, List.map_map, List.append_assoc]
        simp only [List.singleton_append, Nat.cast_zero, add_zero, List.cons.injEq,
          List.append_cancel_left_eq, true_and]
        apply List.map_congr_left
        intro j _
        simp only [Function.comp, Nat.cast_succ]
        ring
      | _ => simp [Event.isSendPeriodic] at he
    · have he2 : e.isSendPeriodic = false := by simpa using he
      rw [List.countP_cons_of_neg _ _ he] at hhi ⊢
      obtain ⟨h1, h2⟩ := step_of_not_sendPeriodic w e he2
      obtain ⟨g1, g2⟩ := ih (step w e) c (by rw [h1, hc]) hlo hhi
      rw [g1, g2, h2]
      exact ⟨rfl, rfl⟩

/-- One round of `idRound` from an idle scheduler with an empty queue returns the
current counter value as id and leaves the queue empty again. -/
theorem run_idRound (w : System) (hq : w.sched.queue = []) (hpc : w.pc = WorkerPc.loopHead)
    (hr : w.sched.running = true) :
    (run w idRound).sched.queue = [] ∧ (run w idRound).pc = WorkerPc.loopHead ∧
      (run w idRound).sched.running = true ∧
      (run w idRound).sched.idCounter = wrapInt32 (w.sched.idCounter + 1) ∧
      (run w idRound).returned = w.returned ++ [w.sched.idCounter] := by
  obtain ⟨⟨q, c, r⟩, pc, sent, ret⟩ := w
  simp only at hq hpc hr
  subst hq hpc hr
  simp [run, idRound, step, sendPeriodic, workerPop, workerSend, PQ.push, PQ.top,
    PQ.minTask, PQ.pop, PQ.empty, seconds]

/-- After `n` rounds of `idRound` on a fresh scheduler the queue is empty and the
ids returned so far are `1, 2, ...` wrapped into the range of `int`. -/
theorem run_idRounds (n : Nat) :
    (run System.init (idRounds n)).sched.queue = [] ∧
      (run System.init (idRounds n)).pc = WorkerPc.loopHead ∧
      (run System.init (idRounds n)).sched.running = true ∧
      (run System.init (idRounds n)).sched.idCounter = wrapInt32 ((n : Int) + 1) ∧
      (run System.init (idRounds n)).returned =
        (List.range n).map (fun (j : Nat) => wrapInt32 ((j : Int) + 1)) := by
  induction n with
  | zero =>
    refine ⟨rfl, rfl, rfl, ?_, rfl⟩
    decide
  | succ n ih =>
    obtain ⟨h1, h2, h3, h4, h5⟩ := ih
    obtain ⟨g1, g2, g3, g4, g5⟩ := run_idRound (run System.init (idRounds n)) h1 h2 h3
    have hrun : run System.init (idRounds (n + 1)) =
        run (run System.init (idRounds n)) idRound := by
      show run System.init (idRounds n ++ idRound) = _
      exact run_append _ _ _
    rw [hrun]
    refine ⟨g1, g2, g3, ?_, ?_⟩
    · rw [g4, h4, wrapInt32_succ]
      push_cast
      rfl
    · rw [g5, h5, h4, List.range_succ, List.map_append]
      rfl

/-! Section: The scenario of `main` -/

theorem run_mainScenario_start :
    run System.init (mainCalls ++ passAt 2 ++ passAt 4 ++ passAt 5) =
      pingQueued 6 [pingAt 2, pingAt 4, delayTask] := by
  decide

/-- A pass of the worker exactly at the fire time of the lone periodic task sends
it and queues it for two seconds later. -/
theorem run_passAt_pingQueued (secs : Nat) (sent : List Task) :
    run (pingQueued secs sent) (passAt secs) =
      pingQueued (secs + 2) (sent ++ [pingAt secs]) := by
  have harith : (secs : Int) * ticksPerSecond + seconds 2 =
      ((secs + 2 : Nat) : Int) * ticksPerSecond := by
    have h2 : seconds 2 = 2 * ticksPerSecond := rfl
    rw [h2]
    push_cast
    ring
  have htop : PQ.top [pingAt secs] = some (pingAt secs) := rfl
  have hpop : PQ.pop [pingAt secs] = [] := by
    simp [PQ.pop, htop]
  have hint : (pingAt secs).interval = 2 := rfl
  have hnext : (pingAt secs).nextTime = (secs : Int) * ticksPerSecond := rfl
  have hre : ({ pingAt secs with
      nextTime := (secs : Int) * ticksPerSecond + seconds 2 } : Task) = pingAt (secs + 2) := by
    rw [harith]; rfl
  have hpos : (0 : UInt8T) < (pingAt secs).interval := by rw [hint]; decide
  simp only [run, passAt, List.foldl, step, workerPop, workerSend, pingQueued, loneQueued,
    PQ.empty, List.isEmpty, htop, hpop, hnext, PQ.push]
  simp only [gt_iff_lt, lt_self_iff_false, if_false, Bool.true_eq_false, hpos, decide_True,
    Bool.and_self, if_true, List.nil_append]
  exact congrArg (fun t => loneQueued t (sent ++ [pingAt secs])) hre

theorem run_laterPasses (k : Nat) :
    run (pingQueued 6 [pingAt 2, pingAt 4, delayTask]) (laterPasses k) =
      pingQueued (6 + 2 * k)
        ([pingAt 2, pingAt 4, delayTask] ++ (List.range k).map (fun j => pingAt (6 + 2 * j))) := by
  induction k with
  | zero => rfl
  | succ k ih =>
    show run _ (laterPasses k ++ passAt (6 + 2 * k)) = _
    rw [run_append, ih, run_passAt_pingQueued, List.range_succ, List.map_append,
      List.append_assoc]
    rfl

/-! Section: The claims -/

/-- C1: after `cancelPeriodic(taskId)` the queue holds exactly the tasks of the old
queue whose id differs from `taskId`, each as often as before and unchanged, and
no task whose id is `taskId`; the id counter and the running flag are not
touched; when no queued task carries `taskId` the queue holds the same tasks as
before. -/
theorem cancelPeriodic_removes_exactly (s : Sched) (taskId : Int) :
    List.Perm (cancelPeriodic taskId s).queue
        (s.queue.filter (fun t => decide (t.id ≠ taskId))) ∧
      (∀ t : Task, (cancelPeriodic taskId s).queue.count t =
        if t.id = taskId then 0 else s.queue.count t) ∧
      (∀ t ∈ (cancelPeriodic taskId s).queue, t.id ≠ taskId) ∧
      (cancelPeriodic taskId s).idCounter = s.idCounter ∧
      (cancelPeriodic taskId s).running = s.running ∧
      ((∀ t ∈ s.queue, t.id ≠ taskId) →
        List.Perm (cancelPeriodic taskId s).queue s.queue) := by
  have hperm := cancelPeriodic_perm taskId s
  refine ⟨hperm, ?_, ?_, rfl, rfl, ?_⟩
  · intro t
    rw [hperm.count_eq]
    by_cases hid : t.id = taskId
    · simp only [hid, if_true]
      apply List.count_eq_zero.2
      intro hmem
      have := (List.mem_filter.1 hmem).2
      simp [hid] at this
    · simp only [hid, if_false]
      exact List.count_filter (by simpa using hid)
  · intro t ht
    have := (List.mem_filter.1 (hperm.subset ht)).2
    simpa using this
  · intro hall
    have hfil : s.queue.filter (fun t => decide (t.id ≠ taskId)) = s.queue := by
      apply List.filter_eq_self.2
      intro t ht
      simpa using hall t ht
    rw [hfil] at hperm
    exact hperm

/-- Witness for C1: cancelling id 7 on a queue with ids 0 and 1 keeps both tasks. -/
theorem cancelPeriodic_removes_exactly_witness :
    List.Perm (cancelPeriodic 7 oneShotAndPeriodic.sched).queue
      oneShotAndPeriodic.sched.queue :=
  (cancelPeriodic_removes_exactly oneShotAndPeriodic.sched 7).2.2.2.2.2 (by decide)

/-- C2, the code at the failing input `cancelZero`: on a fresh scheduler,
`sendAfter(5, ...)` at time 0 queues one one-shot task (id 0); `cancelPeriodic(0)`
then empties the queue, and the pass of the worker at 5 s finds nothing to
send, so the one-shot task is never dispatched. -/
theorem cancelPeriodic_zero_drops_oneShot :
    (sendAfter 0 5 (loopback 5001) [68] Sched.init).queue =
        [{ nextTime := 5000000000, interval := 0, id := 0,
           addr := loopback 5001, payload := [68] }] ∧
      (cancelPeriodic 0 (sendAfter 0 5 (loopback 5001) [68] Sched.init)).queue = [] ∧
      (run System.init (cancelZero.take 2)).sched.queue = [] ∧
      (run System.init cancelZero).sent = [] ∧
      (run System.init cancelZero).sched.queue = [] := by
  decide

/-- What the filter `t.id != taskId` of `cancelPeriodic` does for `taskId = 0`: it
removes exactly the queued tasks whose id is 0 and keeps every other task; the
task a `sendAfter` call has just queued is among the removed ones; the queue is
left as it was if and only if no queued task has id 0. -/
theorem cancelPeriodic_zero_filter (s : Sched) :
    List.Perm (cancelPeriodic 0 s).queue (s.queue.filter (fun t => decide (t.id ≠ 0))) ∧
      (∀ (now : Int) (d : UInt8T) (addr : SockAddr) (data : List UInt8T),
        ({ nextTime := now + seconds d, interval := 0, id := 0, addr := addr,
           payload := data } : Task) ∈ (sendAfter now d addr data s).queue ∧
        ({ nextTime := now + seconds d, interval := 0, id := 0, addr := addr,
           payload := data } : Task) ∉
          (cancelPeriodic 0 (sendAfter now d addr data s)).queue) ∧
      (List.Perm (cancelPeriodic 0 s).queue s.queue ↔ ∀ t ∈ s.queue, t.id ≠ 0) := by
  refine ⟨cancelPeriodic_perm 0 s, ?_, ?_⟩
  · intro now d addr data
    constructor
    · simp [sendAfter, PQ.push]
    · intro hmem
      have h := (List.mem_filter.1
        ((cancelPeriodic_perm 0 (sendAfter now d addr data s)).subset hmem)).2
      simp at h
  · constructor
    · intro hp t ht
      have h := (List.mem_filter.1
        ((cancelPeriodic_perm 0 s).subset (hp.symm.subset ht))).2
      simpa using h
    · intro hall
      have hfil : s.queue.filter (fun t => decide (t.id ≠ 0)) = s.queue := by
        apply List.filter_eq_self.2
        intro t ht
        simpa using hall t ht
      have hperm := cancelPeriodic_perm 0 s
      rw [hfil] at hperm
      exact hperm

/-- Counterexample to C3: on a fresh scheduler `sendPeriodic(0, ...)` at time 0
returns id 1, queues a task and advances the id counter. -/
theorem sendPeriodic_zero_not_rejected :
    sendPeriodic 0 0 (loopback 5002) [80] Sched.init =
        (1, { queue := [{ nextTime := 0, interval := 0, id := 1,
                          addr := loopback 5002, payload := [80] }],
              idCounter := 2, running := true }) ∧
      (sendPeriodic 0 0 (loopback 5002) [80] Sched.init).2.queue ≠ Sched.init.queue := by
  decide

/-- C3, amended: `sendPeriodic` with interval 0 is not rejected. In every state it
returns the current value of the id counter, advances the counter, and pushes
one task that carries the returned id, interval 0 and `nextTime = now`. -/
theorem sendPeriodic_zero_enqueues (s : Sched) (now : Int) (addr : SockAddr)
    (data : List UInt8T) :
    sendPeriodic now 0 addr data s =
      (s.idCounter,
        { queue := s.queue.push { nextTime := now, interval := 0, id := s.idCounter,
                                  addr := addr, payload := data },
          idCounter := wrapInt32 (s.idCounter + 1),
          running := s.running }) := by
  simp [sendPeriodic, seconds]

/-- Counterexample to C6: a periodic task (every 2 s) due at 2 s that the worker
observes at 3 s is requeued for 5 s, not for 2 s + 2 s = 4 s. -/
theorem requeue_drifts_when_late :
    (workerIter 3000000000 onePeriodic).sched.queue =
        [{ nextTime := 5000000000, interval := 2, id := 1,
           addr := loopback 5002, payload := [80, 105, 110, 103] }] ∧
      (5000000000 : Int) ≠ 2000000000 + seconds 2 := by
  decide

/-- C6, amended: when a pass of the worker dispatches a periodic task `t` at clock
reading `now` (so `t.nextTime ≤ now`), the requeued task has
`nextTime = now + interval`, whatever the send takes; this is
`t.nextTime + interval` exactly when the worker saw the task at its fire time
(`now = t.nextTime`), and later than that otherwise. -/
theorem requeue_time_is_now_plus_interval (w : System) (now : Int) (t : Task)
    (hpc : w.pc = WorkerPc.loopHead)
    (hpop : (workerPop now w).pc = WorkerPc.sending t now)
    (hper : 0 < t.interval) :
    t.nextTime ≤ now ∧
      (workerIter now w).sched.queue =
        (PQ.pop w.sched.queue).push { t with nextTime := now + seconds t.interval } ∧
      (now + seconds t.interval = t.nextTime + seconds t.interval ↔ now = t.nextTime) ∧
      t.nextTime + seconds t.interval ≤ now + seconds t.interval := by
  obtain ⟨_, hrun, _, hdue, heq⟩ := workerPop_sending hpc hpop
  refine ⟨hdue, ?_, ?_, ?_⟩
  · unfold workerIter
    rw [workerSend_sending hpop, heq]
    simp [hper, hrun]
  · constructor
    · intro h; linarith
    · intro h; rw [h]
  · linarith

/-- Witness for C6 (amended): the task of `onePeriodic`, observed one second late. -/
theorem requeue_time_is_now_plus_interval_witness :
    (workerIter 3000000000 onePeriodic).sched.queue =
      (PQ.pop onePeriodic.sched.queue).push
        { nextTime := 3000000000 + seconds 2, interval := 2, id := 1,
          addr := loopback 5002, payload := [80, 105, 110, 103] } :=
  (requeue_time_is_now_plus_interval onePeriodic 3000000000
    { nextTime := 2000000000, interval := 2, id := 1,
      addr := loopback 5002, payload := [80, 105, 110, 103] }
    (by decide) (by decide) (by decide)).2.1

/-- C9: `sendAfter(d, dest, payload)` pushes exactly one task, with id 0, interval 0,
`nextTime = now + d` seconds and the given payload, and touches nothing else;
and a pass of the worker that dispatches a task with interval 0 leaves the queue
it found minus that one task: nothing is pushed back, also when other calls
ran between the pop and the end of the pass. -/
theorem oneShot_pushed_once_never_requeued :
    (∀ (s : Sched) (now : Int) (d : UInt8T) (addr : SockAddr) (data : List UInt8T),
        (sendAfter now d addr data s).queue =
            s.queue.push { nextTime := now + seconds d, interval := 0, id := 0,
                           addr := addr, payload := data } ∧
          List.Perm (sendAfter now d addr data s).queue
            ({ nextTime := now + seconds d, interval := 0, id := 0,
               addr := addr, payload := data } :: s.queue) ∧
          (sendAfter now d addr data s).idCounter = s.idCounter ∧
          (sendAfter now d addr data s).running = s.running) ∧
      (∀ (w : System) (now : Int) (t : Task),
        w.pc = WorkerPc.loopHead →
        (workerPop now w).pc = WorkerPc.sending t now →
        t.interval = 0 →
          (workerIter now w).sched.queue = PQ.pop w.sched.queue ∧
          (workerIter now w).sched.queue = w.sched.queue.erase t ∧
          List.Perm w.sched.queue (t :: (workerIter now w).sched.queue) ∧
          (workerIter now w).sent = w.sent ++ [t] ∧
          (workerIter now w).pc = WorkerPc.loopHead) ∧
      (∀ (w : System) (now : Int) (t : Task),
        w.pc = WorkerPc.sending t now → t.interval = 0 →
          (workerSend w).sched.queue = w.sched.queue) := by
  refine ⟨?_, ?_, ?_⟩
  · intro s now d addr data
    refine ⟨rfl, ?_, rfl, rfl⟩
    simp only [sendAfter, PQ.push]
    exact List.perm_append_comm
  · intro w now t hpc hpop hint
    obtain ⟨_, hrun, htop, hdue, heq⟩ := workerPop_sending hpc hpop
    have hiter : workerIter now w =
        { w with sched := { w.sched with queue := PQ.pop w.sched.queue },
                 pc := WorkerPc.loopHead, sent := w.sent ++ [t] } := by
      unfold workerIter
      rw [workerSend_sending hpop, heq]
      simp [hint]
    rw [hiter]
    refine ⟨rfl, PQ.pop_eq_erase htop, PQ.perm_top_pop htop, rfl, rfl⟩
  · intro w now t hpc hint
    rw [workerSend_sending hpc]
    simp [hint]

/-- Witness for C9: the worker, at 5 s, dispatches the one-shot task of
`oneShotAndPeriodic` and leaves only the periodic task queued. -/
theorem oneShot_pushed_once_never_requeued_witness :
    (workerIter 5000000000 oneShotAndPeriodic).sched.queue =
      PQ.pop oneShotAndPeriodic.sched.queue :=
  (oneShot_pushed_once_never_requeued.2.1 oneShotAndPeriodic 5000000000
    { nextTime := 5000000000, interval := 0, id := 0,
      addr := loopback 5001, payload := [68] }
    (by decide) (by decide) (by decide)).1

/-- C10: the clock reading kept with a popped task is the one at which the worker
found it due; when the worker completes the dispatch of a task with
`interval > 0` while `running` is true it pushes exactly one task, equal to the
popped one in id, interval, address and payload, with
`nextTime = now + interval` for that clock reading; when `running` is false
it pushes nothing. In both cases the popped task is handed to `sendPacket`. -/
theorem periodic_requeued_at_dispatch_time_plus_interval :
    (∀ (w : System) (now n : Int) (t : Task),
        w.pc = WorkerPc.loopHead →
        (workerPop now w).pc = WorkerPc.sending t n →
          n = now ∧ PQ.top w.sched.queue = some t ∧ t.nextTime ≤ now) ∧
      (∀ (w : System) (now : Int) (t : Task),
        w.pc = WorkerPc.sending t now →
          (workerSend w).sent = w.sent ++ [t] ∧
          (0 < t.interval → w.sched.running = true →
            (workerSend w).sched.queue =
              w.sched.queue.push { nextTime := now + seconds t.interval,
                                   interval := t.interval, id := t.id,
                                   addr := t.addr, payload := t.payload } ∧
            (workerSend w).sched.queue.length = w.sched.queue.length + 1) ∧
          (w.sched.running = false → (workerSend w).sched.queue = w.sched.queue)) := by
  constructor
  · intro w now n t hpc hpop
    obtain ⟨h1, _, h3, h4, _⟩ := workerPop_sending hpc hpop
    exact ⟨h1, h3, h4⟩
  · intro w now t hpc
    rw [workerSend_sending hpc]
    refine ⟨?_, ?_, ?_⟩
    · split <;> rfl
    · intro hper hrun
      simp [hper, hrun, PQ.push]
    · intro hrun
      simp [hrun]

/-- Witness for C10: the in-flight periodic task of `onePeriodic`, popped at 2 s, is
pushed back for 4 s. -/
theorem periodic_requeued_at_dispatch_time_plus_interval_witness :
    (workerSend (workerPop 2000000000 onePeriodic)).sched.queue =
      (workerPop 2000000000 onePeriodic).sched.queue.push
        { nextTime := 2000000000 + seconds 2, interval := 2, id := 1,
          addr := loopback 5002, payload := [80, 105, 110, 103] } :=
  ((periodic_requeued_at_dispatch_time_plus_interval.2
    (workerPop 2000000000 onePeriodic) 2000000000
    { nextTime := 2000000000, interval := 2, id := 1,
      addr := loopback 5002, payload := [80, 105, 110, 103] }
    (by decide)).2.1 (by decide) (by decide)).1

theorem seconds_nonneg (n : UInt8T) : 0 ≤ seconds n := by
  unfold seconds ticksPerSecond
  positivity

/-- C5: when a pass of the worker dispatches a task `t` at clock reading `now`, then
`t.nextTime ≤ now` and `t.nextTime ≤ u.nextTime` for every task `u` left in the
queue, both right after the pop and at the end of the pass. Consequently, for
two queued tasks `A`, `B` with distinct fire times, in every run that cancels
neither of their ids: if `A` is the earlier one, `B` is sent only after `A`; and
when both are sent, `A` is sent first if and only if `A.nextTime < B.nextTime`,
wherever the two stand in the queue. -/
theorem dispatch_in_fire_time_order :
    (∀ (w : System) (now : Int) (t : Task),
        w.pc = WorkerPc.loopHead →
        (workerPop now w).pc = WorkerPc.sending t now →
          t.nextTime ≤ now ∧
          (∀ u ∈ (workerPop now w).sched.queue, t.nextTime ≤ u.nextTime) ∧
          (∀ u ∈ (workerIter now w).sched.queue, t.nextTime ≤ u.nextTime)) ∧
      (∀ (w : System) (evs : List Event) (A B : Task),
        w.pc = WorkerPc.loopHead →
        A ∈ w.sched.queue → B ∈ w.sched.queue →
        A.nextTime ≠ B.nextTime →
        (∀ e ∈ evs, e ≠ Event.cancelPeriodic A.id ∧ e ≠ Event.cancelPeriodic B.id) →
          (A.nextTime < B.nextTime → B ∈ dispatched w evs →
            A ∈ dispatched w evs ∧
            List.indexOf A (dispatched w evs) < List.indexOf B (dispatched w evs)) ∧
          (A ∈ dispatched w evs → B ∈ dispatched w evs →
            (List.indexOf A (dispatched w evs) < List.indexOf B (dispatched w evs) ↔
              A.nextTime < B.nextTime))) := by
  constructor
  · intro w now t hpc hpop
    obtain ⟨_, hrun, htop, hdue, heq⟩ := workerPop_sending hpc hpop
    have hpopq : ∀ u ∈ PQ.pop w.sched.queue, t.nextTime ≤ u.nextTime :=
      fun u hu => PQ.top_le htop u (PQ.mem_of_mem_pop hu)
    refine ⟨hdue, ?_, ?_⟩
    · rw [heq]; exact hpopq
    · intro u hu
      unfold workerIter at hu
      rw [workerSend_sending hpop, heq] at hu
      simp only at hu
      split at hu
      · rcases List.mem_append.1 hu with h | h
        · exact hpopq u h
        · simp only [List.mem_singleton] at h
          rw [h]
          have := seconds_nonneg t.interval
          show t.nextTime ≤ now + seconds t.interval
          linarith
      · exact hpopq u hu
  · intro w evs A B hpc hA hB hne hev
    have first : ∀ X Y : Task, X ∈ w.sched.queue →
        (∀ e ∈ evs, e ≠ Event.cancelPeriodic X.id) →
        X.nextTime < Y.nextTime → Y ∈ dispatched w evs →
        List.indexOf X (dispatched w evs) < List.indexOf Y (dispatched w evs) :=
      fun X Y hX hevX hlt hY => earlier_task_sent_first X Y hlt evs hevX w hpc hX hY
    constructor
    · intro hlt hBd
      have h := first A B hA (fun e he => (hev e he).1) hlt hBd
      exact ⟨List.indexOf_lt_length.1 (lt_of_lt_of_le h List.indexOf_le_length), h⟩
    · intro hAd hBd
      constructor
      · intro hidx
        rcases lt_or_gt_of_ne hne with h | h
        · exact h
        · have h2 := first B A hB (fun e he => (hev e he).2) h hAd
          omega
      · intro hlt
        exact first A B hA (fun e he => (hev e he).1) hlt hBd

/-- Witness for C5: from `oneShotAndPeriodic`, with the periodic task taken as `B`
and the one-shot task as `A`, two passes of the worker send `A` first. -/
theorem dispatch_in_fire_time_order_witness :
    List.indexOf lateOneShot (dispatched oneShotAndPeriodic passesAtFiveAndSix) <
      List.indexOf laterPeriodic (dispatched oneShotAndPeriodic passesAtFiveAndSix) :=
  ((dispatch_in_fire_time_order.2 oneShotAndPeriodic passesAtFiveAndSix
      lateOneShot laterPeriodic (by decide) (by decide) (by decide) (by decide)
      (by decide)).2 (by decide) (by decide)).2 (by decide)

/-- C7, the code at the failing interleaving `cancelRace`: when `cancelPeriodic(1)`
has returned the queue is empty and task 1 is in flight; the worker then sends
it, pushes it back for 4 s, and sends it a second time at 4 s, after which it
is queued again for 6 s. -/
theorem cancel_between_pop_and_requeue_is_lost :
    (run System.init (cancelRace.take 3)).sched.queue = [] ∧
      (run System.init (cancelRace.take 3)).pc =
        WorkerPc.sending { nextTime := 2000000000, interval := 2, id := 1,
                           addr := loopback 5002, payload := [80] } 2000000000 ∧
      (run System.init (cancelRace.take 4)).sched.queue =
        [{ nextTime := 4000000000, interval := 2, id := 1,
           addr := loopback 5002, payload := [80] }] ∧
      (run System.init cancelRace).sent =
        [{ nextTime := 2000000000, interval := 2, id := 1,
           addr := loopback 5002, payload := [80] },
         { nextTime := 4000000000, interval := 2, id := 1,
           addr := loopback 5002, payload := [80] }] ∧
      (run System.init cancelRace).sched.queue =
        [{ nextTime := 6000000000, interval := 2, id := 1,
           addr := loopback 5002, payload := [80] }] := by
  decide

/-- Counterexample to C4: after `2^31` rounds of "`sendPeriodic`, then one pass of
the worker" on a fresh scheduler (the queue is empty after every round), one of
the ids `sendPeriodic` has returned is `-2147483648`. -/
theorem sendPeriodic_returns_negative_id_after_wrap :
    (-2147483648 : Int) ∈ (run System.init (idRounds 2147483648)).returned ∧
      (run System.init (idRounds 2147483648)).sched.queue = [] := by
  refine ⟨?_, (run_idRounds 2147483648).1⟩
  rw [(run_idRounds 2147483648).2.2.2.2]
  exact List.mem_map.2 ⟨2147483647, List.mem_range.2 (by norm_num), by decide⟩

/-- C4, amended: for every sequence of events on a fresh scheduler that contains at
most `2^31 - 1` calls of `sendPeriodic`, the ids returned are `1, 2, ..., n` in
call order: each is positive, the first is 1, each is greater than every
earlier one. And in every state the task `sendPeriodic` pushes carries exactly
the id it returns. -/
theorem sendPeriodic_ids_increase_until_wrap :
    (∀ evs : List Event, evs.countP Event.isSendPeriodic ≤ 2147483647 →
        (run System.init evs).returned =
            (List.range (evs.countP Event.isSendPeriodic)).map
              (fun (j : Nat) => (j : Int) + 1) ∧
          (∀ x ∈ (run System.init evs).returned, 0 < x) ∧
          (∀ x, (run System.init evs).returned.head? = some x → x = 1) ∧
          (run System.init evs).returned.Pairwise (fun a b => a < b)) ∧
      (∀ (s : Sched) (now : Int) (i : UInt8T) (addr : SockAddr) (data : List UInt8T),
        (sendPeriodic now i addr data s).2.queue =
          s.queue.push { nextTime := now + seconds i, interval := i,
                         id := (sendPeriodic now i addr data s).1,
                         addr := addr, payload := data }) := by
  constructor
  · intro evs hcount
    have hcast : ((evs.countP Event.isSendPeriodic : Nat) : Int) ≤ 2147483647 := by
      exact_mod_cast hcount
    have h := (run_returned evs System.init 1 (by decide) (by norm_num) (by omega)).1
    have hret : (run System.init evs).returned =
        (List.range (evs.countP Event.isSendPeriodic)).map
          (fun (j : Nat) => (j : Int) + 1) := by
      rw [h]
      show [] ++ _ = _
      rw [List.nil_append]
      apply List.map_congr_left
      intro j _
      ring
    rw [hret]
    refine ⟨rfl, ?_, ?_, ?_⟩
    · intro x hx
      obtain ⟨j, _, hj⟩ := List.mem_map.1 hx
      have : (0 : Int) ≤ (j : Int) := Int.ofNat_nonneg j
      omega
    · intro x hx
      rw [List.head?_map, List.head?_range] at hx
      split at hx
      · simp at hx
      · simp at hx
        omega
    · apply List.Pairwise.map _ _ (List.pairwise_lt_range _)
      intro a b hab
      have : (a : Int) < (b : Int) := by exact_mod_cast hab
      omega
  · intro s now i addr data
    rfl

/-- Witness for C4 (amended): the calls of `main` return the single id 1. -/
theorem sendPeriodic_ids_increase_until_wrap_witness :
    (run System.init mainCalls).returned =
      (List.range (mainCalls.countP Event.isSendPeriodic)).map
        (fun (j : Nat) => (j : Int) + 1) :=
  (sendPeriodic_ids_increase_until_wrap.1 mainCalls (by decide)).1

/-- C8: in the scenario of `main` (on a fresh scheduler, at time 0, `sendNow`,
`sendAfter(5, ...)`, then `sendPeriodic(2, ...)`; the worker makes its passes
exactly at the fire times) the tasks are sent in the order periodic at 2 s,
periodic at 4 s, one-shot at 5 s, periodic at 6 s, periodic at 8 s, and so on
for any number `k` of further passes; the one-shot task is sent exactly once,
and afterwards only the periodic task is queued, for its next fire time. -/
theorem main_scenario_dispatch_order (k : Nat) :
    (run System.init (mainScenario k)).sent =
        [pingAt 2, pingAt 4, delayTask] ++
          (List.range k).map (fun j => pingAt (6 + 2 * j)) ∧
      (run System.init (mainScenario k)).sent.count delayTask = 1 ∧
      (run System.init (mainScenario k)).sched.queue = [pingAt (6 + 2 * k)] := by
  have hrun : run System.init (mainScenario k) =
      pingQueued (6 + 2 * k)
        ([pingAt 2, pingAt 4, delayTask] ++
          (List.range k).map (fun j => pingAt (6 + 2 * j))) := by
    unfold mainScenario
    rw [run_append, run_mainScenario_start, run_laterPasses]
  rw [hrun]
  refine ⟨rfl, ?_, rfl⟩
  show List.count delayTask ([pingAt 2, pingAt 4, delayTask] ++ _) = 1
  rw [List.count_append]
  have h0 : List.count delayTask ((List.range k).map (fun j => pingAt (6 + 2 * j))) = 0 := by
    apply List.count_eq_zero.2
    intro hmem
    obtain ⟨j, _, hj⟩ := List.mem_map.1 hmem
    have hid : (pingAt (6 + 2 * j)).id = delayTask.id := by rw [hj]
    have hid1 : (pingAt (6 + 2 * j)).id = 1 := rfl
    have hid0 : delayTask.id = 0 := rfl
    rw [hid1, hid0] at hid
    exact absurd hid (by decide)
  rw [h0]
  decide

end UdpScheduler
